import Mathlib

/-!
Verification of the replacement engine of the `better-replace-on-save`
editor extension (`src/extension.ts`).

The development shallowly embeds the extension's core logic:

* the rule data model (`ReplacementConfig`),
* the rule resolver inside `applyReplacements` (id filter, language filter,
  JS truthiness of the optional id argument),
* the replacement applier (match-span computation against a snapshot of the
  document text, edit recording, grouped edit application),
* the rule loader (`loadReplacementsFromFile`, `loadAllReplacements`)
  operating on parsed JSON values, including the JS dynamic-typing behaviour
  of the validation (`typeof x === 'object'`, property access on `null`),
* the path variable expander (`expandVariables`) with its tilde,
  user-home-token and environment-token branches.

Host-provided primitives (the JS regular-expression engine, Node's
`path.join`, the editor's grouped edit application) are modelled from their
documented behaviour; each such definition carries a doc comment saying so.
Machine strings are modelled as `List Char` (JS strings, ASCII fragment);
documents are immutable snapshots, edits are explicit offset triples.
-/

namespace BetterReplaceOnSave

/-! ## Data model: `ReplacementConfig` (extension.ts lines 7-12) -/

/-- One configured replacement rule, `interface ReplacementConfig`:
optional `id`, required `search` and `replace`, optional `languages`. -/
structure ReplacementConfig where
  id : Option String
  search : String
  replace : String
  languages : Option (List String)
deriving DecidableEq, Repr

/-! ## Rule resolver (extension.ts `applyReplacements`, lines 307-334) -/

/-- JS truthiness of the optional `specificReplacementId` argument:
`undefined` and the empty string are falsy, every other string is truthy. -/
def jsTruthy (o : Option String) : Bool :=
  match o with
  | none => false
  | some s => s ≠ ""

/-- The per-rule language test, `!r.languages || r.languages.includes(languageId)`
(extension.ts lines 327-329).  A rule with no `languages` field passes; a rule
with a `languages` array passes only if it contains the document language.
An empty array is truthy in JS, so such a rule never passes. -/
def langOk (r : ReplacementConfig) (languageId : String) : Bool :=
  match r.languages with
  | none => true
  | some ls => ls.contains languageId

/-- The rule-selection logic of `applyReplacements` (extension.ts lines 315-330):
filter by id when a truthy specific id was passed, then filter by language
when no truthy id was passed or the invocation is a code action. -/
def resolveApplicable (cached : List ReplacementConfig) (languageId : String)
    (specificReplacementId : Option String) (isCodeAction : Bool) :
    List ReplacementConfig :=
  let afterId :=
    if jsTruthy specificReplacementId then
      cached.filter (fun r => r.id == specificReplacementId)
    else cached
  if !jsTruthy specificReplacementId || (jsTruthy specificReplacementId && isCodeAction) then
    afterId.filter (fun r => langOk r languageId)
  else afterId

/-! ## Command handler `applySpecificReplacement` (extension.ts lines 213-252) -/

/-- Outcome of the `applySpecificReplacement` command handler: either an
informational message with no edit, a cancelled quick pick, or a call to
`applyReplacements` with the given id and code-action flag. -/
inductive CommandOutcome where
  | info (msg : String)
  | canceled
  | apply (id : Option String) (isCodeAction : Bool)
deriving DecidableEq, Repr

/-- The body of the `applySpecificReplacement` command handler
(extension.ts lines 213-252), for an active editor.  `pick` models the user's
quick-pick choice as an index into the offered items (`none` = cancel; an
out-of-range index is likewise treated as a cancel by the host UI model).
A falsy (`undefined` or empty) `replacementId` triggers the quick pick over
the rules that have an `id`; a user-selected item is passed on with
`isCodeAction = false`; otherwise the handler forwards the id with
`!!isCodeAction`. -/
def applySpecificReplacementCommand (cached : List ReplacementConfig)
    (replacementId : Option String) (isCodeAction : Option Bool)
    (pick : Option Nat) : CommandOutcome :=
  if !jsTruthy replacementId then
    let withIds := cached.filter (fun r => r.id.isSome)
    if withIds.isEmpty then
      CommandOutcome.info ("No replacement patterns with IDs configured.")
    else
      match pick with
      | none => CommandOutcome.canceled
      | some i =>
        match (withIds.drop i).head? with
        | none => CommandOutcome.canceled
        | some r => CommandOutcome.apply r.id false
  else
    CommandOutcome.apply replacementId (isCodeAction.getD false)

/-! ## Pattern engine (host `RegExp`, modelled)

`applyReplacements` compiles each rule's `search` string with
`new RegExp(replacement.search, 'gd')` and scans the document snapshot with
`String.matchAll`.  The regular-expression engine itself is host-provided;
it is modelled here for the constructs these rules use: literal characters,
backslash escapes, `.`, alternation, grouping and Kleene star, with the JS
leftmost / first-alternative / greedy match choice. -/

/-- Abstract syntax of the modelled fragment of JS regular expressions. -/
inductive Pattern where
  | epsilon
  | lit (c : Char)
  | anyChar
  | seq (p q : Pattern)
  | alt (p q : Pattern)
  | star (p : Pattern)
deriving DecidableEq, Repr

/-- Structural size of a pattern, used to budget matcher fuel. -/
def Pattern.size : Pattern → Nat
  | .epsilon => 1
  | .lit _ => 1
  | .anyChar => 1
  | .seq p q => p.size + q.size + 1
  | .alt p q => p.size + q.size + 1
  | .star p => p.size + 1

/-- Modelled from the spec: the host pattern engine's match search at one
position (§4.4 steps 2-3).  Returns the lengths of the prefixes of `s` the
pattern can match, in JS backtracking priority order (first alternative
first, greedy star longest first); the head is the length the engine picks.
A star iteration that matches the empty string terminates the loop, as in
JS.  `fuel` bounds the recursion; it is always instantiated large enough
for the inputs evaluated here. -/
def matchLensF : Nat → Pattern → List Char → List Nat
  | 0, _, _ => []
  | _ + 1, .epsilon, _ => [0]
  | _ + 1, .lit c, s =>
    match s with
    | [] => []
    | d :: _ => if d = c then [1] else []
  | _ + 1, .anyChar, s =>
    match s with
    | [] => []
    | _ :: _ => [1]
  | fuel + 1, .seq p q, s =>
    (matchLensF fuel p s).flatMap (fun n => (matchLensF fuel q (s.drop n)).map (n + ·))
  | fuel + 1, .alt p q, s => matchLensF fuel p s ++ matchLensF fuel q s
  | fuel + 1, .star p, s =>
    ((matchLensF fuel p s).filter (fun n => n ≠ 0)).flatMap
      (fun n => (matchLensF fuel (.star p) (s.drop n)).map (n + ·)) ++ [0]

/-- Match lengths of `p` against a prefix of `s`, with ample fuel. -/
def matchLens (p : Pattern) (s : List Char) : List Nat :=
  matchLensF ((s.length + 2) ^ (p.size + 2)) p s

/-- First match of `p` at or after the scan position: tries each start
position left to right (JS `exec` with a global regex scanning from
`lastIndex`); `i` is the absolute index of the head of `s`.  Returns the
absolute start index and the matched length. -/
def searchAux (p : Pattern) : Nat → List Char → Option (Nat × Nat)
  | i, s =>
    match (matchLens p s).head? with
    | some n => some (i, n)
    | none =>
      match s with
      | [] => none
      | _ :: t => searchAux p (i + 1) t

/-- Modelled from the spec: `String.matchAll` with a global regex (§4.4
step 3) — repeatedly search from `lastIndex`, record the span, continue
after the match, advancing by one position after an empty match.  `fuel`
dominates the number of iterations (`s.length + 2` suffices since the scan
position strictly increases). -/
def jsMatchAllAux (p : Pattern) (s : List Char) : Nat → Nat → List (Nat × Nat)
  | _, 0 => []
  | start, fuel + 1 =>
    if start > s.length then []
    else
      match searchAux p start (s.drop start) with
      | none => []
      | some (i, n) =>
        (i, n) :: jsMatchAllAux p s (if n = 0 then i + 1 else i + n) fuel

/-- All match spans (start index, length) of `p` in `s`, leftmost first,
non-overlapping, as produced by `text.matchAll(searchValue)`. -/
def jsMatchAll (p : Pattern) (s : List Char) : List (Nat × Nat) :=
  jsMatchAllAux p s 0 (s.length + 2)

/-! ### The pattern parser (host `new RegExp`, modelled) -/

mutual

/-- Modelled from the spec: the host pattern parser (`new RegExp`,
§4.4 step 2), restricted to the fragment of `Pattern`: alternation level.
`fuel` bounds recursion; `compilePattern` passes enough for any input. -/
def parseAlt : Nat → List Char → Pattern × List Char
  | 0, s => (Pattern.epsilon, s)
  | fuel + 1, s =>
    let pr := parseSeq fuel s
    match pr.2 with
    | '|' :: r2 =>
      let qr := parseAlt fuel r2
      (Pattern.alt pr.1 qr.1, qr.2)
    | _ => pr

/-- Concatenation level of the pattern parser, including the `*` postfix. -/
def parseSeq : Nat → List Char → Pattern × List Char
  | 0, s => (Pattern.epsilon, s)
  | fuel + 1, s =>
    match s with
    | [] => (Pattern.epsilon, [])
    | ')' :: _ => (Pattern.epsilon, s)
    | '|' :: _ => (Pattern.epsilon, s)
    | _ =>
      let pr := parseAtom fuel s
      match pr.2 with
      | '*' :: r2 =>
        let qr := parseSeq fuel r2
        (Pattern.seq (Pattern.star pr.1) qr.1, qr.2)
      | _ =>
        let qr := parseSeq fuel pr.2
        (Pattern.seq pr.1 qr.1, qr.2)

/-- Atom level of the pattern parser: escapes, `.`, groups, literals. -/
def parseAtom : Nat → List Char → Pattern × List Char
  | 0, s => (Pattern.epsilon, s)
  | fuel + 1, s =>
    match s with
    | [] => (Pattern.epsilon, [])
    | '\\' :: c :: rest => (Pattern.lit c, rest)
    | '\\' :: [] => (Pattern.lit '\\', [])
    | '.' :: rest => (Pattern.anyChar, rest)
    | '(' :: rest =>
      let pr := parseAlt fuel rest
      match pr.2 with
      | ')' :: r3 => (pr.1, r3)
      | _ => pr
    | c :: rest => (Pattern.lit c, rest)

end

/-- Compile a rule's `search` string, as `new RegExp(search, 'gd')` does
(modelled fragment). -/
def compilePattern (search : String) : Pattern :=
  (parseAlt (2 * search.length + 8) search.toList).1

/-! ### Replacement-text computation

For each match, the source computes
`matchedText.replace(searchValue, replacement.replace)` (line 346): every
match of the pattern inside the matched text is replaced by the template. -/

/-- Modelled from the spec: JS template substitution in `String.replace`
(§4.4 step 4), for the fragment used here: a doubled dollar escapes itself,
a dollar-ampersand inserts the matched text, everything else is literal. -/
def expandTemplate (matched : List Char) : List Char → List Char
  | [] => []
  | '$' :: '$' :: rest => '$' :: expandTemplate matched rest
  | '$' :: '&' :: rest => matched ++ expandTemplate matched rest
  | c :: rest => c :: expandTemplate matched rest

/-- Splice replacements for the given (ascending, non-overlapping) spans
into `s`, starting from offset `pos`. -/
def spliceGo (template : List Char) (s : List Char) : Nat → List (Nat × Nat) → List Char
  | pos, [] => s.drop pos
  | pos, (i, n) :: rest =>
    ((s.take i).drop pos) ++ expandTemplate ((s.drop i).take n) template ++
      spliceGo template s (i + n) rest

/-- JS `s.replace(pattern, template)` with a global pattern: replace every
match span of `pattern` in `s` by the expanded template. -/
def jsReplaceAll (p : Pattern) (template : List Char) (s : List Char) : List Char :=
  spliceGo template s 0 (jsMatchAll p s)

/-! ## Replacement applier (extension.ts `applyReplacements`, lines 336-350) -/

/-- One recorded edit: replace the snapshot characters in `[start, stop)`
by `newText` (the `editBuilder.replace(range, replacementText)` call,
line 347, with positions taken as character offsets into the snapshot). -/
structure TextEdit where
  start : Nat
  stop : Nat
  newText : List Char
deriving DecidableEq, Repr

/-- The edits recorded for one rule (the inner `for` loop, lines 340-348):
compile `search`, find all match spans in the snapshot `text`, and for every
span record the span with
`matchedText.replace(searchValue, replacement.replace)` as the new text. -/
def ruleEdits (text : List Char) (r : ReplacementConfig) : List TextEdit :=
  (jsMatchAll (compilePattern r.search) text).map (fun m =>
    { start := m.1
      stop := m.1 + m.2
      newText := jsReplaceAll (compilePattern r.search) r.replace.toList
        ((text.drop m.1).take m.2) })

/-- All edits recorded in one pass (the outer `for` loop, line 339): each
rule in order contributes its edits, all computed against the same
snapshot `text`. -/
def computeEdits (text : List Char) (rules : List ReplacementConfig) : List TextEdit :=
  rules.foldl (fun acc r => acc ++ ruleEdits text r) []

/-- Insert an edit into a start-sorted edit list, keeping it sorted. -/
def insertEdit (e : TextEdit) : List TextEdit → List TextEdit
  | [] => [e]
  | f :: rest => if e.start < f.start then e :: f :: rest else f :: insertEdit e rest

/-- Sort edits by start offset (insertion sort). -/
def sortEdits (edits : List TextEdit) : List TextEdit :=
  edits.foldr insertEdit []

/-- Apply a start-sorted edit list to the snapshot, left to right: keep the
gap before each edit, emit its new text, continue after its span. -/
def applyEditsGo (text : List Char) : Nat → List TextEdit → List Char
  | pos, [] => text.drop pos
  | pos, e :: rest =>
    ((text.take e.start).drop pos) ++ e.newText ++ applyEditsGo text e.stop rest

/-- Modelled from the spec: the host editor's grouped atomic edit primitive
(§4.4 step 6, §6 document provider).  All recorded edits are applied
together against the snapshot, ordered by start offset.  Behaviour on
overlapping spans is implementation-defined per §4.4; this model applies
sorted edits deterministically left to right. -/
def applyEdits (text : List Char) (edits : List TextEdit) : List Char :=
  applyEditsGo text 0 (sortEdits edits)

/-- One full run of `applyReplacements` (extension.ts lines 307-351):
resolve the applicable rules; if none, return without submitting any edit
(flag `false`); otherwise snapshot the text, record all edits and submit
them as one grouped edit (flag `true`). -/
def applyReplacementsRun (cached : List ReplacementConfig) (languageId : String)
    (text : List Char) (specificReplacementId : Option String)
    (isCodeAction : Bool) : List Char × Bool :=
  let app := resolveApplicable cached languageId specificReplacementId isCodeAction
  if app.isEmpty then (text, false)
  else (applyEdits text (computeEdits text app), true)

/-- Where a snapshot position `i` that lies outside every edited span ends
up after `applyEditsGo text pos edits` (edits start-sorted, scan resumed at
`pos`). -/
def shiftIndex (pos i : Nat) : List TextEdit → Nat
  | [] => i - pos
  | e :: rest =>
    if i < e.start then i - pos
    else (e.start - pos) + e.newText.length + shiftIndex e.stop i rest

/-- Well-formedness of a start-sorted edit list over a document of length
`n`, resuming at `pos`: spans are in bounds, ordered and pairwise
disjoint. -/
def EditsOk (pos n : Nat) : List TextEdit → Prop
  | [] => True
  | e :: rest => pos ≤ e.start ∧ e.start ≤ e.stop ∧ e.stop ≤ n ∧ EditsOk e.stop n rest

instance instDecidableEditsOk (pos n : Nat) (edits : List TextEdit) :
    Decidable (EditsOk pos n edits) := by
  induction edits generalizing pos with
  | nil => exact isTrue trivial
  | cons e rest ih =>
    haveI : Decidable (EditsOk e.stop n rest) := ih e.stop
    rw [EditsOk]
    exact inferInstance

/-! ## Rule loader (extension.ts `loadReplacementsFromFile` lines 57-103,
`loadAllReplacements` lines 108-126)

The loader works on parsed JSON values (`JSON.parse` output), so the model
uses an untyped JSON value type.  The TypeScript annotations
(`ReplacementConfig[]`) are compile-time only; at runtime both the inline
configuration and the file elements are plain JS values, and the merged
cache holds exactly those values (`validReplacements.push(replacement)`
pushes the raw parsed object). -/

/-- A parsed JSON value (`JSON.parse` never yields `undefined`). -/
inductive Json where
  | null
  | bool (b : Bool)
  | num (n : Int)
  | str (s : String)
  | arr (xs : List Json)
  | obj (fields : List (String × Json))

/-- Property lookup on a parsed JSON object: last duplicate key wins, as in
`JSON.parse`; a missing key reads as `undefined` (`none`). -/
def objGet (fields : List (String × Json)) (k : String) : Option Json :=
  (fields.reverse.find? (fun p => p.1 == k)).map (fun p => p.2)

/-- JS `typeof v === 'object'`: true for objects, arrays and `null`. -/
def typeofIsObject : Json → Bool
  | .null => true
  | .arr _ => true
  | .obj _ => true
  | _ => false

/-- Whether `v.search` and `v.replace` are both string-valued, i.e. the
element passes the full validation test on line 89-91.  Only non-null
objects can pass: property access on arrays yields `undefined` for these
keys, and primitives fail the `typeof` test. -/
def isValidElem : Json → Bool
  | .obj fields =>
    (match objGet fields ("search") with
     | some (.str _) => true
     | _ => false) &&
    (match objGet fields ("replace") with
     | some (.str _) => true
     | _ => false)
  | _ => false

/-- Whether the value is the JS `null`. -/
def isNull : Json → Bool
  | .null => true
  | _ => false

/-- The per-element validation loop (lines 87-96).  A JS `null` element
passes `typeof replacement === 'object'` and then throws a `TypeError` on
`replacement.search`, which aborts the loop (`Except.error`); every other
invalid element is dropped individually with a warning; valid elements are
pushed through unchanged.  Returns the kept raw elements and the warning
messages emitted. -/
def validateElems : List Json → Except Unit (List Json × List String)
  | [] => .ok ([], [])
  | j :: rest =>
    if typeofIsObject j then
      if isNull j then .error ()
      else
        match validateElems rest with
        | .error u => .error u
        | .ok (v, ws) =>
          if isValidElem j then .ok (j :: v, ws)
          else .ok (v, ("Invalid replacement object in file") :: ws)
    else
      match validateElems rest with
      | .error u => .error u
      | .ok (v, ws) => .ok (v, ("Invalid replacement object in file") :: ws)

/-- The function `loadReplacementsFromFile` (lines 57-103) after path resolution and file
access: the input is `none` when the file is missing or its content does not
parse as JSON (both paths contribute zero rules and a log line), otherwise
the parsed JSON value.  Non-array content contributes zero rules with a
warning; a thrown `TypeError` in the validation loop is caught by the
function-level `try`/`catch`, which logs and returns zero rules. -/
def loadReplacementsFromFile (content : Option Json) : List Json × List String :=
  match content with
  | none => ([], [("Replacements file not found or unreadable")])
  | some j =>
    match j with
    | .arr xs =>
      match validateElems xs with
      | .ok (v, ws) => (v, ws)
      | .error _ => ([], [("Error loading replacements from file")])
    | _ => ([], [("Invalid replacements file format, expected array")])

/-- The function `loadAllReplacements` (lines 108-126): the inline settings rules
(`config.get('replacements') || []`, raw host values, not validated)
followed by the validated rules of each declared file in order. -/
def loadAllReplacements (settings : List Json) (files : List (Option Json)) :
    List Json :=
  settings ++ files.flatMap (fun c => (loadReplacementsFromFile c).1)

/-! ## Variable expander (extension.ts `expandVariables`, lines 28-52)

The home directory and the process environment are host inputs; they are
passed as parameters (`hm` and an association list).  String scanning is
done over `List Char`. -/

/-- The literal token for the user-home variable. -/
def userHomeToken : List Char :=
  ['$', '{', 'u', 's', 'e', 'r', 'H', 'o', 'm', 'e', '}']

/-- The fixed prefix of an environment token. -/
def envPrefix : List Char := ['$', '{', 'e', 'n', 'v', ':']

/-- The test `expandedPath.startsWith('~/')` (line 32). -/
def startsWithTilde (s : List Char) : Bool :=
  ['~', '/'].isPrefixOf s

/-- Whether the character list contains the literal token for the user-home
variable (`expandedPath.includes('$\x7buserHome\x7d')`, line 36). -/
def containsUserHome : List Char → Bool
  | [] => false
  | c :: rest => userHomeToken.isPrefixOf (c :: rest) || containsUserHome rest

/-- Replace every occurrence of the user-home token by the home directory
(`expandedPath.replace(/\$\x7buserHome\x7d/g, os.homedir())`, line 37);
the scan continues after each replacement and does not rescan it. -/
def replaceUserHome (hm : List Char) : List Char → List Char
  | [] => []
  | c :: rest =>
    if userHomeToken.isPrefixOf (c :: rest) then
      hm ++ replaceUserHome hm (rest.drop 10)
    else c :: replaceUserHome hm rest
termination_by s => s.length
decreasing_by
  all_goals simp only [List.length_cons, List.length_drop]
  all_goals omega

/-- Scan up to the first closing brace: the `[^\x7d]*` body of the
environment-token regex.  Returns the name characters and the remainder
after the brace, or `none` when no closing brace follows. -/
def scanName : List Char → Option (List Char × List Char)
  | [] => none
  | c :: rest =>
    if c = '}' then some ([], rest)
    else (scanName rest).map (fun p => (c :: p.1, p.2))

theorem scanName_length : ∀ (s name after : List Char),
    scanName s = some (name, after) → after.length < s.length := by
  intro s
  induction s with
  | nil => intro name after h; simp [scanName] at h
  | cons c rest ih =>
    intro name after h
    rw [scanName] at h
    split at h
    · simp only [Option.some_inj, Prod.mk.injEq] at h
      simp [← h.2]
    · simp only [Option.map_eq_some'] at h
      obtain ⟨⟨a, b⟩, hp, hpe⟩ := h
      cases hpe
      have := ih a b hp
      simp only [List.length_cons]
      omega

/-- Replace every occurrence of an environment token (the
`/\$\x7benv:([^\x7d]+)\x7d/g` replace loop, lines 41-49): at a position
where the full token `$\x7benv:NAME\x7d` (non-empty `NAME` without a
closing brace) starts, a defined variable is substituted and an undefined
one leaves the token unchanged and emits a warning, scanning resuming after
the match; any other position is copied verbatim.  Also returns the
warnings. -/
def expandEnv (env : List (String × String)) : List Char → List Char × List String
  | [] => ([], [])
  | c :: rest =>
    if envPrefix.isPrefixOf (c :: rest) then
      match hscan : scanName (rest.drop 5) with
      | some (name, after) =>
        if name.isEmpty then
          let pr := expandEnv env rest
          (c :: pr.1, pr.2)
        else
          match env.find? (fun q => q.1 == String.mk name) with
          | some q =>
            let pr := expandEnv env after
            (q.2.toList ++ pr.1, pr.2)
          | none =>
            let pr := expandEnv env after
            (envPrefix ++ name ++ '}' :: pr.1,
              ("Environment variable not defined, keeping original path") :: pr.2)
      | none =>
        let pr := expandEnv env rest
        (c :: pr.1, pr.2)
    else
      let pr := expandEnv env rest
      (c :: pr.1, pr.2)
termination_by s => s.length
decreasing_by
  all_goals simp only [List.length_cons, List.length_drop]
  all_goals try omega
  all_goals have h1 := scanName_length _ _ _ hscan
  all_goals simp only [List.length_drop] at h1
  all_goals omega

/-! ### Node `path.posix.join` (host, modelled) -/

/-- Split on the path separator. -/
def splitSlash : List Char → List (List Char)
  | [] => [[]]
  | c :: rest =>
    if c = '/' then [] :: splitSlash rest
    else
      match splitSlash rest with
      | p :: ps => (c :: p) :: ps
      | [] => [[c]]

/-- Join segments with single separators. -/
def intercalateSlash : List (List Char) → List Char
  | [] => []
  | p :: [] => p
  | p :: q :: ps => p ++ '/' :: intercalateSlash (q :: ps)

/-- Apply one `..` segment to the stack of kept segments: pop a normal
segment, stack onto a kept `..`, and above the root keep `..` only for
relative paths. -/
def applyDotDot (allowAbove : Bool) (acc : List (List Char)) : List (List Char) :=
  match acc with
  | top :: tl => if top = ['.', '.'] then ['.', '.'] :: top :: tl else tl
  | [] => if allowAbove then [['.', '.']] else []

/-- Resolve `..` segments against the stack of kept segments
(Node's `normalizeString`; `allowAbove` is set for relative paths). -/
def normSegs (allowAbove : Bool) : List (List Char) → List (List Char) → List (List Char)
  | [], acc => acc.reverse
  | seg :: rest, acc =>
    if seg = ['.', '.'] then normSegs allowAbove rest (applyDotDot allowAbove acc)
    else normSegs allowAbove rest (seg :: acc)

/-- Modelled from the spec: Node's `path.normalize` on a non-empty posix
path — drop empty and `.` segments, resolve `..`, keep one leading
separator for absolute paths and one trailing separator when the input had
one. -/
def normalizePathCL (p : List Char) : List Char :=
  let isAbs : Bool := p.head? = some '/'
  let trail : Bool := p.getLast? = some '/'
  let segs := (splitSlash p).filter (fun seg => seg ≠ [] && seg ≠ ['.'])
  let core := intercalateSlash (normSegs (!isAbs) segs [])
  let core2 := if core.isEmpty && !isAbs then ['.'] else core
  let core3 := if !core2.isEmpty && trail then core2 ++ ['/'] else core2
  if isAbs then '/' :: core3 else core3

/-- Modelled from the spec: Node's `path.join` of two posix segments
(`path.join(os.homedir(), expandedPath.slice(2))`, line 33) — concatenate
the non-empty parts with a separator and normalize; two empty parts join
to `.`. -/
def posixJoin (a b : List Char) : List Char :=
  if a.isEmpty then
    if b.isEmpty then ['.'] else normalizePathCL b
  else if b.isEmpty then normalizePathCL a
  else normalizePathCL (a ++ '/' :: b)

/-- Whether a path contains two consecutive separators. -/
def hasDoubleSlash : List Char → Bool
  | [] => false
  | [_] => false
  | a :: b :: rest => (a = '/' && b = '/') || hasDoubleSlash (b :: rest)

/-- The function `expandVariables` (extension.ts lines 28-52): the tilde branch joins the
home directory with the rest of the path (`path.join(os.homedir(),
expandedPath.slice(2))`), otherwise the user-home token is substituted when
present; in all cases environment tokens are then substituted.  `hm` is
`os.homedir()`, `env` is `process.env`.  Returns the expanded path and the
warnings emitted. -/
def expandVariables (hm : String) (env : List (String × String))
    (filePath : String) : String × List String :=
  let s := filePath.toList
  let s1 :=
    if startsWithTilde s then posixJoin hm.toList (s.drop 2)
    else if containsUserHome s then replaceUserHome hm.toList s
    else s
  let pr := expandEnv env s1
  (String.mk pr.1, pr.2)

/-! ## Concrete sample data used by witnesses -/

/-- An inline settings rule value that lacks a `search` field. -/
def badInlineRule : Json :=
  Json.obj [(("replace"), Json.str ("x"))]

/-- A well-formed rule-file element. -/
def goodElem : Json :=
  Json.obj [(("search"), Json.str ("a")), (("replace"), Json.str ("b"))]

/-- A language-restricted rule with an id (the spec §8 scenario rule). -/
def pyRule : ReplacementConfig :=
  { id := some ("p"), search := "print\\(", replace := "logger.info(",
    languages := some [("python")] }

/-- An unrestricted rule without an id. -/
def fooRule : ReplacementConfig :=
  { id := none, search := "foo", replace := "bar", languages := none }

/-- A rule whose pattern does not occur in the sample document. -/
def xyzRule : ReplacementConfig :=
  { id := some ("x"), search := "xyz", replace := "q", languages := none }

/-! ## Theorems -/

theorem jsTruthy_some_of_ne (id : String) (h : id ≠ "") :
    jsTruthy (some id) = true := by
  simp [jsTruthy, h]

/-- C1: with a truthy specific id, a direct invocation selects exactly the
rules with that id, ignoring the language restriction entirely; the same id
requested as a save-time code action additionally requires the language
test; a broadcast invocation (no id) keeps exactly the rules passing the
language test. -/
theorem resolveApplicable_modes (rules : List ReplacementConfig)
    (languageId id : String) (hid : id ≠ "") (r : ReplacementConfig) :
    (r ∈ resolveApplicable rules languageId (some id) false ↔
      r ∈ rules ∧ r.id = some id)
    ∧ (r ∈ resolveApplicable rules languageId (some id) true ↔
      r ∈ rules ∧ r.id = some id ∧ langOk r languageId = true)
    ∧ (∀ ca : Bool, r ∈ resolveApplicable rules languageId none ca ↔
      r ∈ rules ∧ langOk r languageId = true) := by
  have ht := jsTruthy_some_of_ne id hid
  refine ⟨?_, ?_, ?_⟩
  · simp [resolveApplicable, ht, List.mem_filter]
  · simp only [resolveApplicable, ht]
    simp [List.mem_filter]
    tauto
  · intro ca
    simp [resolveApplicable, jsTruthy, List.mem_filter]

/-- Witness for C1: the spec §8 scenario — the python-restricted rule
`pyRule` applies to a JavaScript document under direct specific-id
invocation and does not apply under the save-time code-action invocation
of the same id. -/
theorem resolveApplicable_modes_witness :
    pyRule ∈ resolveApplicable [pyRule] ("javascript") (some ("p")) false
    ∧ pyRule ∉ resolveApplicable [pyRule] ("javascript") (some ("p")) true := by
  have h := resolveApplicable_modes [pyRule] ("javascript") ("p") (by decide) pyRule
  refine ⟨h.1.mpr ⟨List.mem_singleton.mpr rfl, rfl⟩, fun hc => ?_⟩
  have := (h.2.1.mp hc).2.2
  simp [langOk, pyRule] at this

/-- C9: an empty-string requested id is falsy in JS, so `applyReplacements`
resolves exactly as in broadcast mode, and the `applySpecificReplacement`
command handler takes the same quick-pick path as when no id is passed. -/
theorem emptyId_behaves_as_absent :
    (∀ (rules : List ReplacementConfig) (languageId : String) (ca : Bool),
      resolveApplicable rules languageId (some ("")) ca =
        resolveApplicable rules languageId none ca)
    ∧ (∀ (cached : List ReplacementConfig) (isCodeAction : Option Bool)
        (pick : Option Nat),
      applySpecificReplacementCommand cached (some ("")) isCodeAction pick =
        applySpecificReplacementCommand cached none isCodeAction pick) := by
  constructor
  · intro rules languageId ca
    simp [resolveApplicable, jsTruthy]
  · intro cached isCodeAction pick
    simp [applySpecificReplacementCommand, jsTruthy]

theorem foldl_append_edits (text : List Char) :
    ∀ (rules : List ReplacementConfig) (acc : List TextEdit),
      rules.foldl (fun acc r => acc ++ ruleEdits text r) acc =
        acc ++ rules.flatMap (ruleEdits text) := by
  intro rules
  induction rules with
  | nil => intro acc; simp
  | cons r rest ih => intro acc; simp [ih, List.append_assoc]

/-- The edits of a pass are exactly the per-rule edits against the one
snapshot, concatenated in rule order: the accumulating loop never feeds one
rule's edits into another rule's span computation. -/
theorem computeEdits_eq_flatMap (text : List Char) (rules : List ReplacementConfig) :
    computeEdits text rules = rules.flatMap (ruleEdits text) := by
  simpa [computeEdits] using foldl_append_edits text rules []

/-- C2: with a non-empty applicable rule list, one run of
`applyReplacements` submits exactly one grouped edit whose content is the
concatenation, in rule order, of every rule's match-span edits, all
computed against the same pre-edit snapshot `text`. -/
theorem applyReplacements_groupedSnapshotEdit (cached : List ReplacementConfig)
    (languageId : String) (text : List Char) (specificReplacementId : Option String)
    (isCodeAction : Bool)
    (h : resolveApplicable cached languageId specificReplacementId isCodeAction ≠ []) :
    applyReplacementsRun cached languageId text specificReplacementId isCodeAction =
      (applyEdits text
        ((resolveApplicable cached languageId specificReplacementId isCodeAction).flatMap
          (ruleEdits text)), true) := by
  have he : (resolveApplicable cached languageId specificReplacementId
      isCodeAction).isEmpty = false := by
    cases hr : resolveApplicable cached languageId specificReplacementId isCodeAction
    · exact absurd hr h
    · rfl
  simp [applyReplacementsRun, he, computeEdits_eq_flatMap]

/-- Witness for C2: the spec §8 scenario `foo → bar` on the document
`"This is a foo test"`, broadcast mode. -/
theorem applyReplacements_groupedSnapshotEdit_witness :
    applyReplacementsRun [fooRule] ("text") ("This is a foo test".toList) none false =
      (("This is a bar test".toList), true) := by
  have h := applyReplacements_groupedSnapshotEdit [fooRule] ("text")
    ("This is a foo test".toList) none false (by decide)
  rw [h]
  decide

theorem flatMap_eq_nil_of_all_nil {α β : Type} (l : List α) (f : α → List β)
    (h : ∀ x ∈ l, f x = []) : l.flatMap f = [] := by
  induction l with
  | nil => rfl
  | cons x rest ih =>
    simp only [List.flatMap_cons, h x (List.mem_cons_self x rest),
      List.nil_append]
    exact ih (fun y hy => h y (List.mem_cons_of_mem x hy))

/-- C8: when no applicable rule's pattern matches anywhere in the snapshot,
the pass leaves the document text exactly unchanged — so a second
application after a pass whose result has no further matches is a no-op —
and with zero applicable rules no edit is submitted at all. -/
theorem applyReplacements_noMatch_noop (cached : List ReplacementConfig)
    (languageId : String) (text : List Char) (specificReplacementId : Option String)
    (isCodeAction : Bool)
    (h : ∀ r ∈ resolveApplicable cached languageId specificReplacementId isCodeAction,
      jsMatchAll (compilePattern r.search) text = []) :
    (applyReplacementsRun cached languageId text specificReplacementId isCodeAction).1 = text
    ∧ (resolveApplicable cached languageId specificReplacementId isCodeAction = [] →
      applyReplacementsRun cached languageId text specificReplacementId isCodeAction =
        (text, false)) := by
  have hedits : computeEdits text
      (resolveApplicable cached languageId specificReplacementId isCodeAction) = [] := by
    rw [computeEdits_eq_flatMap]
    exact flatMap_eq_nil_of_all_nil _ _ (fun r hr => by simp [ruleEdits, h r hr])
  constructor
  · cases hr : resolveApplicable cached languageId specificReplacementId isCodeAction
    · simp [applyReplacementsRun, hr]
    · rw [hr] at hedits
      simp [applyReplacementsRun, hr, hedits, applyEdits, sortEdits, applyEditsGo]
  · intro hr
    simp [applyReplacementsRun, hr]

/-- Witness for C8: a rule whose pattern `xyz` has no match in `"hello"`
leaves the text unchanged. -/
theorem applyReplacements_noMatch_noop_witness :
    (applyReplacementsRun [xyzRule] ("text") ("hello".toList) none false).1 =
      "hello".toList := by
  exact (applyReplacements_noMatch_noop [xyzRule] ("text") ("hello".toList) none false
    (by decide)).1

/-! ### Loader theorems (C3, C4) -/

/-- The validation loop in one step: a `null` head aborts; otherwise the
head is kept exactly when it passes the validation predicate and dropped
with one warning otherwise (non-objects and invalid objects behave
identically here, since `isValidElem` is false on all non-objects). -/
theorem validateElems_cons (x : Json) (rest : List Json) :
    validateElems (x :: rest) =
      if isNull x then .error ()
      else
        match validateElems rest with
        | .error u => .error u
        | .ok (v, ws) =>
          if isValidElem x then .ok (x :: v, ws)
          else .ok (v, ("Invalid replacement object in file") :: ws) := by
  cases x <;> cases hrec : validateElems rest <;>
    simp [validateElems, typeofIsObject, isNull, isValidElem, hrec]

theorem validateElems_mem_valid : ∀ (xs v : List Json) (ws : List String),
    validateElems xs = .ok (v, ws) → ∀ j ∈ v, isValidElem j = true := by
  intro xs
  induction xs with
  | nil =>
    intro v ws h j hj
    simp only [validateElems, Except.ok.injEq, Prod.mk.injEq] at h
    rw [← h.1] at hj
    simp at hj
  | cons x rest ih =>
    intro v ws h j hj
    rw [validateElems_cons] at h
    by_cases hn : isNull x = true
    · rw [if_pos hn] at h
      exact absurd h (by simp)
    · rw [if_neg hn] at h
      cases hrec : validateElems rest with
      | error u => rw [hrec] at h; exact absurd h (by simp)
      | ok p =>
        obtain ⟨v1, w1⟩ := p
        rw [hrec] at h
        dsimp only at h
        by_cases hv : isValidElem x = true
        · rw [if_pos hv] at h
          simp only [Except.ok.injEq, Prod.mk.injEq] at h
          rw [← h.1] at hj
          rcases List.mem_cons.mp hj with hj | hj
          · rw [hj]; exact hv
          · exact ih v1 w1 hrec j hj
        · rw [if_neg hv] at h
          simp only [Except.ok.injEq, Prod.mk.injEq] at h
          rw [← h.1] at hj
          exact ih v1 w1 hrec j hj

theorem loadFile_mem_valid (content : Option Json) (j : Json)
    (hj : j ∈ (loadReplacementsFromFile content).1) : isValidElem j = true := by
  cases content with
  | none => simp [loadReplacementsFromFile] at hj
  | some c =>
    cases c with
    | arr xs =>
      cases hrec : validateElems xs with
      | error u => simp [loadReplacementsFromFile, hrec] at hj
      | ok p =>
        simp only [loadReplacementsFromFile, hrec] at hj
        exact validateElems_mem_valid xs p.1 p.2 (by rw [hrec]) j hj
    | null => simp [loadReplacementsFromFile] at hj
    | bool b => simp [loadReplacementsFromFile] at hj
    | num n => simp [loadReplacementsFromFile] at hj
    | str s => simp [loadReplacementsFromFile] at hj
    | obj fields => simp [loadReplacementsFromFile] at hj

/-- Counterexample for C3: an inline settings rule with no `search` field
is merged into the cached rule list exactly as stored — the load performs
no validation on the inline source, so a rule missing a required field
does reach the applier. -/
theorem inlineRuleNotValidated_cex :
    loadAllReplacements [badInlineRule] [] = [badInlineRule]
    ∧ isValidElem badInlineRule = false :=
  ⟨rfl, rfl⟩

/-- C3 (amended): every rule in the merged list either comes verbatim from
the inline settings (unvalidated) or is a file-sourced rule, and every
file-sourced rule passed the string-field validation — file rules missing
`search` or `replace` are dropped at load and never applied. -/
theorem mergedRules_fileSourced_valid (settings : List Json)
    (files : List (Option Json)) (j : Json)
    (hj : j ∈ loadAllReplacements settings files) :
    j ∈ settings ∨ isValidElem j = true := by
  rcases List.mem_append.mp hj with hs | hf
  · exact Or.inl hs
  · right
    obtain ⟨c, _, hjc⟩ := List.mem_flatMap.mp hf
    exact loadFile_mem_valid c j hjc

/-- Witness for C3 (amended): a valid file element flows through the load
into the merged list and satisfies the validation predicate. -/
theorem mergedRules_fileSourced_valid_witness :
    goodElem ∈ ([] : List Json) ∨ isValidElem goodElem = true :=
  mergedRules_fileSourced_valid [] [some (Json.arr [goodElem])] goodElem
    (List.mem_singleton.mpr rfl)

/-- Counterexample for C4: a JSON `null` array element passes the JS
`typeof` object test and then throws on property access; the `try`/`catch`
at function scope swallows the error and the whole file contributes zero
rules, discarding the valid element in the same array. -/
theorem nullElementDiscardsFile_cex :
    (loadReplacementsFromFile (some (Json.arr [Json.null, goodElem]))).1 = []
    ∧ isValidElem goodElem = true :=
  ⟨rfl, rfl⟩

theorem validateElems_no_null : ∀ (xs : List Json), (∀ j ∈ xs, j ≠ Json.null) →
    validateElems xs = .ok (xs.filter isValidElem,
      (xs.filter (fun j => !isValidElem j)).map
        (fun _ => "Invalid replacement object in file")) := by
  intro xs
  induction xs with
  | nil => intro _; rfl
  | cons x rest ih =>
    intro hnull
    have hx : x ≠ Json.null := hnull x (List.mem_cons_self x rest)
    have hn : isNull x = false := by
      cases x with
      | null => exact absurd rfl hx
      | bool b => rfl
      | num n => rfl
      | str s => rfl
      | arr xs' => rfl
      | obj fields => rfl
    have hrec := ih (fun j hj => hnull j (List.mem_cons_of_mem x hj))
    rw [validateElems_cons, hn, hrec]
    by_cases hv : isValidElem x = true
    · simp [List.filter_cons, hv]
    · have hv' : isValidElem x = false := Bool.eq_false_iff.mpr hv
      simp [List.filter_cons, hv']

/-- C4 (amended): for an external rule file whose content is a JSON array
with no `null` element, each invalid element is dropped individually with
one warning while every valid element is returned — one bad (non-null)
entry never discards the rest of the file.  (A `null` element, by the
counterexample, instead aborts the whole file.) -/
theorem fileElements_filteredIndividually (xs : List Json)
    (hnull : ∀ j ∈ xs, j ≠ Json.null) :
    (loadReplacementsFromFile (some (Json.arr xs))).1 = xs.filter isValidElem
    ∧ (loadReplacementsFromFile (some (Json.arr xs))).2.length =
      (xs.filter (fun j => !isValidElem j)).length := by
  have h := validateElems_no_null xs hnull
  constructor
  · simp [loadReplacementsFromFile, h]
  · simp [loadReplacementsFromFile, h]

/-- Witness for C4 (amended): an array mixing a valid element and an
invalid (non-null) number keeps the valid element and emits one warning. -/
theorem fileElements_filteredIndividually_witness :
    (loadReplacementsFromFile (some (Json.arr [goodElem, Json.num 5]))).1 =
      [goodElem, Json.num 5].filter isValidElem
    ∧ (loadReplacementsFromFile (some (Json.arr [goodElem, Json.num 5]))).2.length =
      ([goodElem, Json.num 5].filter (fun j => !isValidElem j)).length := by
  refine fileElements_filteredIndividually [goodElem, Json.num 5] ?_
  intro j hj
  rcases List.mem_cons.mp hj with h | h
  · rw [h]; nofun
  · rcases List.mem_cons.mp h with h' | h'
    · rw [h']; nofun
    · simp at h'

/-! ### Variable-expander theorems (C5, C6, C7) -/

theorem replaceUserHome_id (hm : List Char) :
    ∀ (s : List Char), containsUserHome s = false → replaceUserHome hm s = s := by
  intro s
  induction s with
  | nil => intro _; rw [replaceUserHome]
  | cons c rest ih =>
    intro h
    rw [containsUserHome] at h
    rcases Bool.or_eq_false_iff.mp h with ⟨h1, h2⟩
    rw [replaceUserHome, if_neg (by simp [h1]), ih h2]

/-- C6: at most one of the two home-directory expansions runs per call.
A path starting with the tilde prefix takes the join branch — the
user-home token replacement is bypassed entirely, so literal user-home
tokens survive into the output of that branch; only a path not starting
with the tilde prefix has its user-home tokens substituted.  Environment
tokens are expanded by `expandEnv` in both cases. -/
theorem tildeShortCircuitsUserHome (hm : String) (env : List (String × String))
    (p : String) :
    (startsWithTilde p.toList = true →
      expandVariables hm env p =
        (String.mk (expandEnv env (posixJoin hm.toList (p.toList.drop 2))).1,
         (expandEnv env (posixJoin hm.toList (p.toList.drop 2))).2))
    ∧ (startsWithTilde p.toList = false →
      expandVariables hm env p =
        (String.mk (expandEnv env (replaceUserHome hm.toList p.toList)).1,
         (expandEnv env (replaceUserHome hm.toList p.toList)).2)) := by
  constructor
  · intro h
    simp only [String.toList] at h
    simp [expandVariables, String.toList, h]
  · intro h
    simp only [String.toList] at h
    by_cases hc : containsUserHome p.data = true
    · simp [expandVariables, String.toList, h, hc]
    · have hc' : containsUserHome p.data = false := Bool.eq_false_iff.mpr hc
      simp [expandVariables, String.toList, h, hc',
        replaceUserHome_id hm.data p.data hc']

/-- Witness for C6: under the tilde branch a literal user-home token is
left unexpanded, while the same token in a non-tilde path is expanded;
environment substitution would run in both branches. -/
theorem tildeShortCircuitsUserHome_witness :
    expandVariables ("/hu") [] ("~/a$\x7buserHome\x7db") =
      (("/hu/a$\x7buserHome\x7db"), [])
    ∧ expandVariables ("/hu") [] ("$\x7buserHome\x7d/x") = (("/hu/x"), []) := by
  constructor
  · refine ((tildeShortCircuitsUserHome ("/hu") [] ("~/a$\x7buserHome\x7db")).1
      (by decide)).trans ?_
    simp [posixJoin, normalizePathCL, splitSlash, normSegs, intercalateSlash,
      expandEnv, scanName, envPrefix, List.isPrefixOf]
  · refine ((tildeShortCircuitsUserHome ("/hu") [] ("$\x7buserHome\x7d/x")).2
      (by decide)).trans ?_
    simp [replaceUserHome, userHomeToken, envPrefix, expandEnv, scanName,
      List.isPrefixOf]

theorem scanName_closed : ∀ (name b : List Char), '}' ∉ name →
    scanName (name ++ '}' :: b) = some (name, b) := by
  intro name
  induction name with
  | nil => intro b _; rfl
  | cons c rest ih =>
    intro b h
    have hc : c ≠ '}' := fun hcc => h (hcc ▸ List.mem_cons_self c rest)
    rw [List.cons_append, scanName, if_neg hc,
      ih b (fun hm => h (List.mem_cons_of_mem c hm))]
    rfl

theorem expandEnv_append_noDollar (env : List (String × String)) :
    ∀ (a s : List Char), '$' ∉ a →
      expandEnv env (a ++ s) =
        ((a ++ (expandEnv env s).1), (expandEnv env s).2) := by
  intro a
  induction a with
  | nil => intro s _; simp
  | cons c rest ih =>
    intro s h
    have hc : c ≠ '$' := fun hcc => h (hcc ▸ List.mem_cons_self c rest)
    have hpre : envPrefix.isPrefixOf (c :: (rest ++ s)) = false := by
      simp [envPrefix, List.isPrefixOf]
      intro hcc
      exact absurd hcc.symm hc
    rw [List.cons_append, expandEnv, if_neg (by simp [hpre])]
    simp [ih s (fun hm => h (List.mem_cons_of_mem c hm))]

theorem expandEnv_token_head (env : List (String × String)) (name b : List Char)
    (hname : name ≠ []) (hbrace : '}' ∉ name) :
    expandEnv env (envPrefix ++ name ++ '}' :: b) =
      match env.find? (fun q => q.1 == String.mk name) with
      | some q =>
        ((q.2.toList ++ (expandEnv env b).1), (expandEnv env b).2)
      | none =>
        ((envPrefix ++ name ++ '}' :: (expandEnv env b).1),
          ("Environment variable not defined, keeping original path") ::
            (expandEnv env b).2) := by
  have hpre : envPrefix.isPrefixOf
      ('$' :: '{' :: 'e' :: 'n' :: 'v' :: ':' :: (name ++ '}' :: b)) = true := by
    simp [envPrefix, List.isPrefixOf]
  have hne : name.isEmpty = false := by
    cases name with
    | nil => exact absurd rfl hname
    | cons x xs => rfl
  have hscan2 : scanName
      (('{' :: 'e' :: 'n' :: 'v' :: ':' :: (name ++ '}' :: b)).drop 5) =
      some (name, b) := by
    simp only [List.drop_succ_cons, List.drop_zero]
    exact scanName_closed name b hbrace
  show expandEnv env
      ('$' :: '{' :: 'e' :: 'n' :: 'v' :: ':' :: (name ++ '}' :: b)) = _
  rw [expandEnv]
  simp only [hpre, if_true]
  split
  · rename_i name1 after1 hscan1
    rw [hscan2] at hscan1
    simp only [Option.some.injEq, Prod.mk.injEq] at hscan1
    obtain ⟨h1, h2⟩ := hscan1
    subst h1
    subst h2
    simp only [hne, Bool.false_eq_true, if_false]
  · rename_i hscan1
    rw [hscan2] at hscan1
    simp at hscan1

/-- C7: for a path containing an environment token with a non-empty
brace-free name (and no interference from the tilde or user-home stages),
a defined variable has every occurrence of its token substituted with its
value, and an undefined variable leaves the token character-for-character
unchanged while emitting a warning — the expansion never fails, it is a
total function either way.  The trailing text `b` is expanded recursively,
so later occurrences of the same token are handled identically. -/
theorem envToken_expansion (hm : String) (env : List (String × String))
    (a name b : List Char) (ha : '$' ∉ a) (hname : name ≠ [])
    (hbrace : '}' ∉ name)
    (hts : startsWithTilde (a ++ (envPrefix ++ name ++ '}' :: b)) = false)
    (huh : containsUserHome (a ++ (envPrefix ++ name ++ '}' :: b)) = false) :
    (∀ q : String × String, env.find? (fun q => q.1 == String.mk name) = some q →
      expandVariables hm env (String.mk (a ++ (envPrefix ++ name ++ '}' :: b))) =
        (String.mk (a ++ (q.2.toList ++ (expandEnv env b).1)),
          (expandEnv env b).2))
    ∧ (env.find? (fun q => q.1 == String.mk name) = none →
      expandVariables hm env (String.mk (a ++ (envPrefix ++ name ++ '}' :: b))) =
        (String.mk (a ++ (envPrefix ++ name ++ '}' :: (expandEnv env b).1)),
          ("Environment variable not defined, keeping original path") ::
            (expandEnv env b).2)) := by
  have hlist : (String.mk (a ++ (envPrefix ++ name ++ '}' :: b))).toList =
      a ++ (envPrefix ++ name ++ '}' :: b) := rfl
  have hstage : expandVariables hm env
      (String.mk (a ++ (envPrefix ++ name ++ '}' :: b))) =
      (String.mk (expandEnv env (a ++ (envPrefix ++ name ++ '}' :: b))).1,
        (expandEnv env (a ++ (envPrefix ++ name ++ '}' :: b))).2) := by
    simp only [expandVariables, hlist, hts, huh, Bool.false_eq_true, if_false]
  have hsplit := expandEnv_append_noDollar env a (envPrefix ++ name ++ '}' :: b) ha
  have htok := expandEnv_token_head env name b hname hbrace
  constructor
  · intro q hq
    rw [hq] at htok
    rw [hstage, hsplit, htok]
  · intro hq
    rw [hq] at htok
    rw [hstage, hsplit, htok]

/-- Witness for C7: the spec §8 scenario — with `MISSING` undefined, the
path is expanded to the literal unchanged string with one warning; with
`HOME` defined as `/h`, the token is substituted. -/
theorem envToken_expansion_witness :
    expandVariables ("/home/u") [] ("$\x7benv:MISSING\x7d/x.json") =
      (("$\x7benv:MISSING\x7d/x.json"),
        [("Environment variable not defined, keeping original path")])
    ∧ expandVariables ("/home/u") [(("HOME"), ("/h"))] ("a-$\x7benv:HOME\x7d") =
      (("a-/h"), []) := by
  constructor
  · refine ((envToken_expansion ("/home/u") [] [] ("MISSING".toList)
      ("/x.json".toList) (by decide) (by decide) (by decide) (by decide)
      (by decide)).2 rfl).trans ?_
    simp [expandEnv, scanName, envPrefix, List.isPrefixOf]
  · refine ((envToken_expansion ("/home/u") [(("HOME"), ("/h"))]
      ("a-".toList) ("HOME".toList) [] (by decide) (by decide) (by decide)
      (by decide) (by decide)).1 (("HOME"), ("/h")) rfl).trans ?_
    simp [expandEnv, scanName, envPrefix, List.isPrefixOf]

/-- Counterexample for C5: a substituted environment value ending in a
separator followed by a separator in the template yields a doubled
separator that the expander does not collapse — the output is not
normalized. -/
theorem expansionOutput_not_normalized_cex :
    (expandVariables ("/home/u") [(("V"), ("/a/"))] ("$\x7benv:V\x7d/x")).1 =
      ("/a//x")
    ∧ hasDoubleSlash (("/a//x").toList) = true := by
  constructor
  · simp [expandVariables, startsWithTilde, containsUserHome, userHomeToken,
      envPrefix, expandEnv, scanName, List.isPrefixOf]
  · decide

/-! ### Normalization of the tilde-branch join (C5 amended) -/

/-- A well-formed path segment: non-empty and separator-free. -/
def SegOk (p : List Char) : Prop := p ≠ [] ∧ '/' ∉ p

/-- A path with no doubled separator and neither a leading nor a trailing
separator. -/
def PathOk (x : List Char) : Prop :=
  hasDoubleSlash x = false ∧ x.head? ≠ some '/' ∧ x.getLast? ≠ some '/'

theorem splitSlash_no_slash : ∀ (s : List Char), ∀ p ∈ splitSlash s, '/' ∉ p := by
  intro s
  induction s with
  | nil =>
    intro p hp
    simp only [splitSlash, List.mem_singleton] at hp
    simp [hp]
  | cons c rest ih =>
    intro p hp
    rw [splitSlash] at hp
    by_cases hc : c = '/'
    · rw [if_pos hc] at hp
      rcases List.mem_cons.mp hp with h | h
      · simp [h]
      · exact ih p h
    · rw [if_neg hc] at hp
      cases hsp : splitSlash rest with
      | nil =>
        rw [hsp] at hp
        simp only [List.mem_singleton] at hp
        rw [hp]
        simp [eq_comm, hc]
      | cons q qs =>
        rw [hsp] at hp
        rcases List.mem_cons.mp hp with h | h
        · rw [h]
          have hq : '/' ∉ q := ih q (hsp ▸ List.mem_cons_self q qs)
          simp [eq_comm, hc, hq]
        · exact ih p (hsp ▸ List.mem_cons_of_mem q h)

theorem normSegs_ok (allowAbove : Bool) :
    ∀ (segs acc : List (List Char)), (∀ p ∈ segs, SegOk p) →
      (∀ p ∈ acc, SegOk p) → ∀ p ∈ normSegs allowAbove segs acc, SegOk p := by
  intro segs
  induction segs with
  | nil =>
    intro acc _ hacc p hp
    rw [normSegs] at hp
    exact hacc p (List.mem_reverse.mp hp)
  | cons seg rest ih =>
    intro acc hsegs hacc p hp
    have hseg : SegOk seg := hsegs seg (List.mem_cons_self seg rest)
    have hrest : ∀ q ∈ rest, SegOk q :=
      fun q hq => hsegs q (List.mem_cons_of_mem seg hq)
    have hdots : SegOk (['.', '.'] : List Char) := by
      constructor
      · simp
      · decide
    have hdd : ∀ q ∈ applyDotDot allowAbove acc, SegOk q := by
      intro q hq
      rw [applyDotDot.eq_def] at hq
      cases acc with
      | nil =>
        by_cases hab : allowAbove = true
        · rw [hab] at hq
          simp only [if_true, List.mem_singleton] at hq
          rw [hq]; exact hdots
        · have hab' : allowAbove = false := Bool.eq_false_iff.mpr hab
          rw [hab'] at hq
          simp at hq
      | cons top tl =>
        dsimp only at hq
        by_cases ht : top = ['.', '.']
        · rw [if_pos ht] at hq
          rcases List.mem_cons.mp hq with h | h
          · rw [h]; exact hdots
          · exact hacc q h
        · rw [if_neg ht] at hq
          exact hacc q (List.mem_cons_of_mem top hq)
    rw [normSegs] at hp
    by_cases hd : seg = ['.', '.']
    · rw [if_pos hd] at hp
      exact ih (applyDotDot allowAbove acc) hrest hdd p hp
    · rw [if_neg hd] at hp
      refine ih (seg :: acc) hrest ?_ p hp
      intro q hq
      rcases List.mem_cons.mp hq with h | h
      · rw [h]; exact hseg
      · exact hacc q h

theorem hds_of_no_slash : ∀ (p : List Char), '/' ∉ p → hasDoubleSlash p = false := by
  intro p
  induction p with
  | nil => intro _; rfl
  | cons a rest ih =>
    intro h
    cases rest with
    | nil => rfl
    | cons b rest' =>
      rw [hasDoubleSlash]
      have ha : a ≠ '/' := fun hc => h (hc ▸ List.mem_cons_self a (b :: rest'))
      have hr : hasDoubleSlash (b :: rest') = false :=
        ih (fun hm => h (List.mem_cons_of_mem a hm))
      simp [ha, hr]

theorem head?_ne_slash_of_no_slash (p : List Char) (h : '/' ∉ p) :
    p.head? ≠ some '/' := by
  cases p with
  | nil => simp
  | cons a rest =>
    have ha : a ≠ '/' := fun hc => h (hc ▸ List.mem_cons_self a rest)
    simp [ha]

theorem getLast?_ne_slash_of_no_slash : ∀ (p : List Char), '/' ∉ p →
    p.getLast? ≠ some '/' := by
  intro p
  induction p with
  | nil => intro _; simp
  | cons a rest ih =>
    intro h
    cases rest with
    | nil =>
      have ha : a ≠ '/' := fun hc => h (hc ▸ List.mem_cons_self a [])
      simp [ha]
    | cons b rest' =>
      rw [List.getLast?_cons_cons]
      exact ih (fun hm => h (List.mem_cons_of_mem a hm))

theorem pathOk_of_no_slash (p : List Char) (h : '/' ∉ p) : PathOk p :=
  ⟨hds_of_no_slash p h, head?_ne_slash_of_no_slash p h,
    getLast?_ne_slash_of_no_slash p h⟩

theorem hds_noslash_append : ∀ (p r : List Char), '/' ∉ p →
    hasDoubleSlash r = false → hasDoubleSlash (p ++ r) = false := by
  intro p
  induction p with
  | nil => intro r _ hr; simpa using hr
  | cons a p' ih =>
    intro r h hr
    have ha : a ≠ '/' := fun hc => h (hc ▸ List.mem_cons_self a p')
    have hrec : hasDoubleSlash (p' ++ r) = false :=
      ih r (fun hm => h (List.mem_cons_of_mem a hm)) hr
    rw [List.cons_append]
    cases hpr : p' ++ r with
    | nil => rfl
    | cons w rest =>
      rw [hasDoubleSlash]
      rw [hpr] at hrec
      simp [ha, hrec]

theorem intercalateSlash_ne_nil (q : List Char) (hq : q ≠ []) :
    ∀ (ps : List (List Char)), intercalateSlash (q :: ps) ≠ [] := by
  intro ps
  cases ps with
  | nil => simpa [intercalateSlash] using hq
  | cons r ps' =>
    rw [intercalateSlash]
    cases q with
    | nil => exact absurd rfl hq
    | cons a q' => simp

theorem inter_ok : ∀ (ps : List (List Char)), (∀ p ∈ ps, SegOk p) →
    PathOk (intercalateSlash ps) := by
  intro ps
  induction ps with
  | nil =>
    intro _
    refine ⟨rfl, by simp [intercalateSlash], by simp [intercalateSlash]⟩
  | cons p rest ih =>
    intro hps
    have hp : SegOk p := hps p (List.mem_cons_self p rest)
    have hrest : ∀ q ∈ rest, SegOk q :=
      fun q hq => hps q (List.mem_cons_of_mem p hq)
    cases rest with
    | nil =>
      rw [intercalateSlash]
      exact pathOk_of_no_slash p hp.2
    | cons q ps' =>
      have hq : SegOk q := hrest q (List.mem_cons_self q ps')
      obtain ⟨ih1, ih2, ih3⟩ := ih hrest
      have hinterne : intercalateSlash (q :: ps') ≠ [] :=
        intercalateSlash_ne_nil q hq.1 ps'
      rw [intercalateSlash]
      have hslashX : hasDoubleSlash ('/' :: intercalateSlash (q :: ps')) = false := by
        cases hX : intercalateSlash (q :: ps') with
        | nil => rfl
        | cons w rest' =>
          rw [hasDoubleSlash]
          have hw : w ≠ '/' := by
            intro hww
            apply ih2
            rw [hX, hww]
            rfl
          rw [hX] at ih1
          simp [hw, ih1]
      refine ⟨hds_noslash_append p _ hp.2 hslashX, ?_, ?_⟩
      · cases hpc : p with
        | nil => exact absurd hpc hp.1
        | cons a p' =>
          have ha : a ≠ '/' := by
            intro hc
            exact hp.2 (hpc ▸ hc ▸ List.mem_cons_self a p')
          simp [ha]
      · have : (p ++ '/' :: intercalateSlash (q :: ps')).getLast? =
            ('/' :: intercalateSlash (q :: ps')).getLast? := by
          apply List.getLast?_append_of_ne_nil
          simp
        rw [this]
        cases hX : intercalateSlash (q :: ps') with
        | nil => exact absurd hX hinterne
        | cons w rest' =>
          rw [List.getLast?_cons_cons]
          rw [hX] at ih3
          exact ih3

theorem hds_append_single : ∀ (x : List Char), hasDoubleSlash x = false →
    x.getLast? ≠ some '/' → hasDoubleSlash (x ++ ['/']) = false := by
  intro x
  induction x with
  | nil => intro _ _; rfl
  | cons a x' ih =>
    intro h hlast
    cases x' with
    | nil =>
      have ha : a ≠ '/' := by
        intro hc
        apply hlast
        rw [hc]
        rfl
      simp [hasDoubleSlash, ha]
    | cons b x'' =>
      rw [List.cons_append, List.cons_append, hasDoubleSlash]
      rw [hasDoubleSlash] at h
      rcases Bool.or_eq_false_iff.mp h with ⟨h1, h2⟩
      have hlast' : (b :: x'').getLast? ≠ some '/' := by
        rw [List.getLast?_cons_cons] at hlast
        exact hlast
      have hrec := ih h2 hlast'
      rw [List.cons_append] at hrec
      simp [h1, hrec]

/-- Modelled host join produces a path with no doubled separator
(and no leading doubled separator either): Node's `path.join`
normalization collapses redundant separators. -/
theorem hasDoubleSlash_normalizePathCL (p : List Char) :
    hasDoubleSlash (normalizePathCL p) = false := by
  rw [normalizePathCL]
  have hsegs : ∀ q ∈ (splitSlash p).filter
      (fun seg => seg ≠ [] && seg ≠ ['.']), SegOk q := by
    intro q hq
    rcases List.mem_filter.mp hq with ⟨hmem, hpred⟩
    simp only [Bool.and_eq_true, decide_eq_true_eq] at hpred
    exact ⟨hpred.1, splitSlash_no_slash p q hmem⟩
  have hpieces := normSegs_ok (!(p.head? = some '/' : Bool)) _ [] hsegs (by simp)
  obtain ⟨h1, h2, h3⟩ := inter_ok _ hpieces
  set core := intercalateSlash
    (normSegs (!(p.head? = some '/' : Bool))
      ((splitSlash p).filter (fun seg => seg ≠ [] && seg ≠ ['.'])) []) with hcore
  have hcore2 : hasDoubleSlash (if core.isEmpty &&
        !(p.head? = some '/' : Bool) then ['.'] else core) = false ∧
      (if core.isEmpty && !(p.head? = some '/' : Bool) then ['.']
        else core).head? ≠ some '/' ∧
      (if core.isEmpty && !(p.head? = some '/' : Bool) then ['.']
        else core).getLast? ≠ some '/' := by
    by_cases hc : (core.isEmpty && !(p.head? = some '/' : Bool)) = true
    · rw [if_pos hc]
      refine ⟨rfl, by simp, by simp⟩
    · rw [if_neg hc]
      exact ⟨h1, h2, h3⟩
  set core2 := if core.isEmpty && !(p.head? = some '/' : Bool) then ['.']
    else core with hcore2def
  obtain ⟨hc1, hc2, hc3⟩ := hcore2
  have hcore3 : hasDoubleSlash (if !core2.isEmpty &&
        (p.getLast? = some '/' : Bool) then core2 ++ ['/'] else core2) = false ∧
      (if !core2.isEmpty && (p.getLast? = some '/' : Bool) then core2 ++ ['/']
        else core2).head? ≠ some '/' := by
    by_cases hc : (!core2.isEmpty && (p.getLast? = some '/' : Bool)) = true
    · rw [if_pos hc]
      have hne : core2 ≠ [] := by
        have hc' := hc
        simp only [Bool.and_eq_true] at hc'
        obtain ⟨hne', _⟩ := hc'
        intro hcc
        rw [hcc] at hne'
        simp at hne'
      constructor
      · exact hds_append_single core2 hc1 hc3
      · cases hc2' : core2 with
        | nil => exact absurd hc2' hne
        | cons a rest =>
          rw [hc2'] at hc2
          simpa using hc2
    · rw [if_neg hc]
      exact ⟨hc1, hc2⟩
  set core3 := if !core2.isEmpty && (p.getLast? = some '/' : Bool) then
    core2 ++ ['/'] else core2 with hcore3def
  obtain ⟨hd1, hd2⟩ := hcore3
  by_cases habs : (p.head? = some '/' : Bool) = true
  · rw [if_pos habs]
    cases hc3' : core3 with
    | nil => rfl
    | cons w rest =>
      rw [hasDoubleSlash]
      have hw : w ≠ '/' := by
        intro hww
        apply hd2
        rw [hc3', hww]
        rfl
      rw [hc3'] at hd1
      simp [hw, hd1]
  · rw [if_neg habs]
    exact hd1

/-- Counterexample-driven statement for C5 (amended): the tilde branch's
home-directory join is normalized — `posixJoin` output never contains a
doubled separator — and under a tilde path the expander's result is
exactly the environment expansion of that join.  The substitution branches
(`$\x7buserHome\x7d`, `$\x7benv:...\x7d`) perform plain string replacement
and may leave doubled separators (see the counterexample). -/
theorem tildeJoin_normalized (hm rest : List Char) (env : List (String × String)) :
    hasDoubleSlash (posixJoin hm rest) = false
    ∧ expandVariables (String.mk hm) env (String.mk ('~' :: '/' :: rest)) =
      (String.mk (expandEnv env (posixJoin hm rest)).1,
        (expandEnv env (posixJoin hm rest)).2) := by
  constructor
  · rw [posixJoin]
    by_cases ha : hm.isEmpty = true
    · rw [if_pos ha]
      by_cases hb : rest.isEmpty = true
      · rw [if_pos hb]; rfl
      · rw [if_neg hb]; exact hasDoubleSlash_normalizePathCL rest
    · rw [if_neg ha]
      by_cases hb : rest.isEmpty = true
      · rw [if_pos hb]; exact hasDoubleSlash_normalizePathCL hm
      · rw [if_neg hb]; exact hasDoubleSlash_normalizePathCL (hm ++ '/' :: rest)
  · have hts : startsWithTilde ('~' :: '/' :: rest) = true := by
      simp [startsWithTilde, List.isPrefixOf]
    simp [expandVariables, String.toList, hts]

/-! ### Frame property of the grouped edit (C10) -/

theorem mem_insertEdit (e a : TextEdit) :
    ∀ (l : List TextEdit), a ∈ insertEdit e l ↔ a = e ∨ a ∈ l := by
  intro l
  induction l with
  | nil => simp [insertEdit]
  | cons f rest ih =>
    rw [insertEdit]
    by_cases hc : e.start < f.start
    · rw [if_pos hc]
      simp [List.mem_cons]
    · rw [if_neg hc]
      simp only [List.mem_cons, ih]
      tauto

theorem mem_sortEdits (a : TextEdit) :
    ∀ (edits : List TextEdit), a ∈ sortEdits edits ↔ a ∈ edits := by
  intro edits
  induction edits with
  | nil => simp [sortEdits]
  | cons e rest ih =>
    simp only [sortEdits, List.foldr_cons] at *
    rw [mem_insertEdit, ih]
    simp [List.mem_cons]

theorem applyEditsGo_frame (text : List Char) :
    ∀ (edits : List TextEdit) (pos i : Nat), EditsOk pos text.length edits →
      pos ≤ i → i < text.length →
      (∀ e ∈ edits, i < e.start ∨ e.stop ≤ i) →
      (applyEditsGo text pos edits)[shiftIndex pos i edits]? = text[i]? := by
  intro edits
  induction edits with
  | nil =>
    intro pos i _ hpi _ _
    rw [applyEditsGo, shiftIndex, List.getElem?_drop]
    congr 1
    omega
  | cons e rest ih =>
    intro pos i hok hpi hi houts
    rw [EditsOk] at hok
    obtain ⟨h1, h2, h3, h4⟩ := hok
    have hA : ((text.take e.start).drop pos).length = e.start - pos := by
      simp only [List.length_drop, List.length_take]
      omega
    rw [applyEditsGo, shiftIndex]
    rcases houts e (List.mem_cons_self e rest) with hlt | hge
    · rw [if_pos hlt]
      have hidx : i - pos < ((text.take e.start).drop pos).length := by
        rw [hA]; omega
      rw [List.append_assoc, List.getElem?_append_left hidx, List.getElem?_drop]
      have hip : pos + (i - pos) = i := by omega
      rw [hip, List.getElem?_take_of_lt hlt]
    · have hnlt : ¬ i < e.start := by omega
      rw [if_neg hnlt]
      rw [List.append_assoc]
      have hge1 : ((text.take e.start).drop pos).length ≤
          e.start - pos + e.newText.length + shiftIndex e.stop i rest := by
        rw [hA]; omega
      rw [List.getElem?_append_right hge1]
      have hsub : e.start - pos + e.newText.length + shiftIndex e.stop i rest -
          ((text.take e.start).drop pos).length =
          e.newText.length + shiftIndex e.stop i rest := by
        rw [hA]; omega
      rw [hsub]
      have hge2 : e.newText.length ≤ e.newText.length + shiftIndex e.stop i rest :=
        Nat.le_add_right _ _
      rw [List.getElem?_append_right hge2]
      have hsub2 : e.newText.length + shiftIndex e.stop i rest - e.newText.length =
          shiftIndex e.stop i rest := by omega
      rw [hsub2]
      exact ih e.stop i h4 hge hi
        (fun f hf => houts f (List.mem_cons_of_mem e hf))

/-- C10: every edit recorded by a pass covers exactly one match span of one
rule's compiled pattern against the pre-edit snapshot, with the
corresponding replacement text; and, when the recorded spans are pairwise
disjoint (overlap handling is host-defined per the design), every character
of the snapshot outside all recorded spans reappears unchanged in the
output of the grouped edit, at its shifted offset. -/
theorem applyEdits_frame (text : List Char) (rules : List ReplacementConfig) :
    (∀ e ∈ computeEdits text rules,
      ∃ r ∈ rules, ∃ m ∈ jsMatchAll (compilePattern r.search) text,
        e.start = m.1 ∧ e.stop = m.1 + m.2 ∧
        e.newText = jsReplaceAll (compilePattern r.search) r.replace.toList
          ((text.drop m.1).take m.2))
    ∧ (EditsOk 0 text.length (sortEdits (computeEdits text rules)) →
      ∀ i : Nat, i < text.length →
      (∀ e ∈ computeEdits text rules, i < e.start ∨ e.stop ≤ i) →
      (applyEdits text (computeEdits text rules))[
        shiftIndex 0 i (sortEdits (computeEdits text rules))]? = text[i]?) := by
  constructor
  · intro e he
    rw [computeEdits_eq_flatMap] at he
    obtain ⟨r, hr, he'⟩ := List.mem_flatMap.mp he
    rw [ruleEdits] at he'
    obtain ⟨m, hm, hme⟩ := List.mem_map.mp he'
    refine ⟨r, hr, m, hm, ?_, ?_, ?_⟩ <;> rw [← hme]
  · intro hok i hi houts
    rw [applyEdits]
    exact applyEditsGo_frame text (sortEdits (computeEdits text rules)) 0 i hok
      (Nat.zero_le i) hi
      (fun e hf => houts e ((mem_sortEdits e _).mp hf))

/-- Witness for C10: the `foo → bar` rule on `"a foo b"` records the single
span `[2, 5)`; position 0 (outside the span) is unchanged, and position 6
reappears at its shifted offset. -/
theorem applyEdits_frame_witness :
    (∃ r ∈ [fooRule], ∃ m ∈ jsMatchAll (compilePattern r.search) ("a foo b".toList),
      ({ start := 2, stop := 5, newText := "bar".toList } : TextEdit).start = m.1
      ∧ ({ start := 2, stop := 5, newText := "bar".toList } : TextEdit).stop = m.1 + m.2
      ∧ ({ start := 2, stop := 5, newText := "bar".toList } : TextEdit).newText =
          jsReplaceAll (compilePattern r.search) r.replace.toList
            ((("a foo b".toList).drop m.1).take m.2))
    ∧ (applyEdits ("a foo b".toList) (computeEdits ("a foo b".toList) [fooRule]))[
        shiftIndex 0 6 (sortEdits (computeEdits ("a foo b".toList) [fooRule]))]? =
      ("a foo b".toList)[6]? := by
  constructor
  · exact (applyEdits_frame ("a foo b".toList) [fooRule]).1
      { start := 2, stop := 5, newText := "bar".toList } (by decide)
  · exact (applyEdits_frame ("a foo b".toList) [fooRule]).2 (by decide) 6
      (by decide) (by decide)

end BetterReplaceOnSave
